import Mathlib

/-!
Verification development for the Medical-AI prescription processor.

The Python source (src/ocr_processor.py, src/models.py, src/main.py) is shallowly
embedded below. Text is represented as `List Char`; the concrete regular
expressions used by the source are embedded as executable scanning functions with
Python `re` semantics (leftmost match, greedy quantifiers with backtracking,
IGNORECASE where the source passes it), and `datetime.strptime` is embedded
following CPython's `_strptime` directive grammar (`%d`, `%m`, `%y`, `%Y`,
`%b`, `%B`, literal separators, whitespace).
-/

/-- Python whitespace characters relevant to `\s`, `str.strip()` (ASCII range). -/
def isWsPy (c : Char) : Bool :=
  c = ' ' || c = '\t' || c = '\n' || c = '\r' || c = Char.ofNat 11 || c = Char.ofNat 12

/-- Python `str.strip()` on the left. -/
def trimL (s : List Char) : List Char := s.dropWhile isWsPy

/-- Python `str.strip()` on the right. -/
def trimR (s : List Char) : List Char := (s.reverse.dropWhile isWsPy).reverse

/-- Python `str.strip()`. -/
def pystrip (s : List Char) : List Char := trimR (trimL s)

/-- Case-insensitive prefix stripping: if `kw` is a (case-insensitive, ASCII)
prefix of `s`, return the remainder of `s`. Models matching a literal keyword
under `re.IGNORECASE`. -/
def stripPrefCI : List Char → List Char → Option (List Char)
  | [], s => some s
  | _ :: _, [] => none
  | k :: ks, c :: cs => if k.toLower = c.toLower then stripPrefCI ks cs else none

/-- Whether `kw` occurs (case-insensitively) as a contiguous substring of `s`. -/
def occursCI (kw : List Char) : List Char → Bool
  | [] => (stripPrefCI kw []).isSome
  | s@(_ :: rest) => (stripPrefCI kw s).isSome || occursCI kw rest

/- ### extract_field (src/ocr_processor.py lines 23-35) -/

/-- The capture of `(.*)` in Python (no DOTALL): everything up to the next
newline or the end of the string. -/
def lineCapture (s : List Char) : List Char := s.takeWhile (fun c => !(c = '\n'))

/-- After the keyword's colon, the regex `\s*(.*)` greedily skips whitespace
(including newlines) and captures the rest of that line. -/
def afterColonCapture (s : List Char) : List Char := lineCapture (s.dropWhile isWsPy)

/-- Attempt the regex `keyword:\s*(.*)` (IGNORECASE) anchored at this position;
on success return the captured group 1. -/
def kwFieldMatchAt (kw s : List Char) : Option (List Char) :=
  match stripPrefCI kw s with
  | some (':' :: r) => some (afterColonCapture r)
  | _ => none

/-- `re.search` for `keyword:\s*(.*)`: leftmost position wins; returns group 1. -/
def searchKW (kw : List Char) : List Char → Option (List Char)
  | [] => kwFieldMatchAt kw []
  | s@(_ :: rest) =>
    match kwFieldMatchAt kw s with
    | some v => some v
    | none => searchKW kw rest

/-- Does `[A-Z][a-z]+:` match at this position? (`re.split` boundary, case
sensitive as in the source.) -/
def capLabelAt : List Char → Bool
  | c :: r =>
    c.isUpper && !(r.takeWhile Char.isLower).isEmpty &&
      (match r.dropWhile Char.isLower with
       | ':' :: _ => true
       | _ => false)
  | [] => false

/-- Does `\s{2,}|[A-Z][a-z]+:` match at this position? -/
def fieldBoundaryAt (s : List Char) : Bool :=
  (match s with
   | c1 :: c2 :: _ => isWsPy c1 && isWsPy c2
   | _ => false) || capLabelAt s

/-- The part of `s` strictly before the first position where
`\s{2,}|[A-Z][a-z]+:` matches, i.e. `re.split(..., s)[0]`. -/
def truncBefore : List Char → List Char
  | [] => []
  | c :: r => if fieldBoundaryAt (c :: r) then [] else c :: truncBefore r

/-- The post-processing applied by `extract_field` to a captured value:
strip, truncate at the first `\s{2,}` run or `[A-Z][a-z]+:` label, strip. -/
def cleanValue (v : List Char) : List Char := pystrip (truncBefore (pystrip v))

/-- `extract_field` from src/ocr_processor.py: for each keyword in order, search
case-insensitively for `keyword:\s*(.*)`; clean the captured value; return the
first non-empty cleaned value, else `none`. -/
def extract_field (text : List Char) (keywords : List (List Char)) : Option (List Char) :=
  match keywords with
  | [] => none
  | kw :: rest =>
    match searchKW kw text with
    | some raw =>
      let value := cleanValue raw
      if value = [] then extract_field text rest else some value
    | none => extract_field text rest

/- ### extract_notes (src/ocr_processor.py lines 60-87) -/

/-- The keyword list of `extract_notes`, in source order. -/
def notesKeywords : List (List Char) :=
  ["Rx".data, "Diagnosis".data, "Notes".data, "Advice".data,
   "Medication".data, "Prescription".data]

/-- A character matched by `[\s:]`. -/
def wsColon (c : Char) : Bool := isWsPy c || c = ':'

/-- Attempt the regex `(keyword[\s:]+)` (IGNORECASE) anchored at this position;
on success return the total matched length (`[\s:]+` is greedy and nothing
follows it, so it takes the maximal run). -/
def kwNotesMatchAt (kw s : List Char) : Option Nat :=
  match stripPrefCI kw s with
  | some r =>
    let run := (r.takeWhile wsColon).length
    if run = 0 then none else some (kw.length + run)
  | none => none

/-- `re.search` for `(keyword[\s:]+)`: leftmost match; returns `match.end()`,
the offset just past the matched keyword-plus-separator run. -/
def searchNotesEnd (kw : List Char) : List Char → Option Nat
  | [] => kwNotesMatchAt kw []
  | s@(_ :: rest) =>
    match kwNotesMatchAt kw s with
    | some len => some len
    | none => (searchNotesEnd kw rest).map (· + 1)

/-- Scanning forward through whitespace, is a `'\n'` reachable? Used for the
`\n\s*\n` alternative of the notes-truncation split (with backtracking over
the greedy `\s*`). -/
def nlThroughWs : List Char → Bool
  | [] => false
  | c :: r => if c = '\n' then true else if isWsPy c then nlThroughWs r else false

/-- Does the literal (case-sensitive) word `w` occur at this position? -/
def litAt : List Char → List Char → Bool
  | [], _ => true
  | _ :: _, [] => false
  | w :: ws, c :: cs => w = c && litAt ws cs

/-- Does `\n\s*\n|Signature:|Doctor:` match at this position? -/
def notesBoundaryAt (s : List Char) : Bool :=
  (match s with
   | '\n' :: r => nlThroughWs r
   | _ => false) ||
  litAt "Signature:".data s || litAt "Doctor:".data s

/-- The part of `s` strictly before the first match of
`\n\s*\n|Signature:|Doctor:`, i.e. `re.split(..., s, 1)[0]`. -/
def notesTrunc : List Char → List Char
  | [] => []
  | c :: r => if notesBoundaryAt (c :: r) then [] else c :: notesTrunc r

/-- The cleanup `extract_notes` applies to `text[start_index:]`:
strip, truncate at the first blank line / `Signature:` / `Doctor:`, strip. -/
def notesClean (s : List Char) : List Char := pystrip (notesTrunc (pystrip s))

/-- One iteration of the keyword loop of `extract_notes`, carrying
`(start_index, best_guess)` (`none` plays the role of `start_index = -1`):
a keyword whose leftmost match ends strictly later replaces the current best. -/
def notesStep (text kw : List Char) (acc : Option (Nat × List Char)) :
    Option (Nat × List Char) :=
  match searchNotesEnd kw text, acc with
  | some e, none => some (e, notesClean (text.drop e))
  | some e, some (be, bg) =>
    if be < e then some (e, notesClean (text.drop e)) else some (be, bg)
  | none, a => a

/-- The keyword loop of `extract_notes`. -/
def notesLoop (text : List Char) : List (List Char) → Option (Nat × List Char) →
    Option (Nat × List Char)
  | [], acc => acc
  | kw :: rest, acc => notesLoop text rest (notesStep text kw acc)

/-- `extract_notes` from src/ocr_processor.py: run the keyword loop; return the
best guess if it is non-empty (Python truthiness), else `none`. -/
def extract_notes (text : List Char) : Option (List Char) :=
  match notesLoop text notesKeywords none with
  | some (_, g) => if g = [] then none else some g
  | none => none

/- ### extract_date (src/ocr_processor.py lines 37-58) -/

/-- A calendar date as produced by `datetime.strptime(...).date()`. -/
structure PyDate where
  year : Nat
  month : Nat
  day : Nat
deriving DecidableEq, Repr

/-- Numeric value of a decimal digit character. -/
def digitVal (c : Char) : Nat := c.toNat - 48

/-- Length of the run of decimal digits at the front of `s`. -/
def digitsRunLen (s : List Char) : Nat := (s.takeWhile Char.isDigit).length

/-- Try each element of `xs` in order, returning the first success. Models
regex alternation / quantifier backtracking over a finite candidate list. -/
def firstSome {α β : Type} : List α → (α → Option β) → Option β
  | [], _ => none
  | x :: rest, f =>
    match f x with
    | some v => some v
    | none => firstSome rest f

/-- Match the separator class (slash or hyphen) at the front. -/
def sepCheck : List Char → Option (List Char)
  | c :: r => if c = '/' || c = '-' then some r else none
  | [] => none

/-- Greedy `\d{lo,hi}` at the end of a pattern: the number of digits matched
(the maximal available run capped at `hi`, failing below `lo`). -/
def takeUpToDigits (lo hi : Nat) (s : List Char) : Option Nat :=
  let k := min (digitsRunLen s) hi
  if k < lo then none else some k

/-- The month-name alternation `(?:Jan|Feb|Mar|Apr|May|Jun|Jul|Aug|Sep|Oct|Nov|Dec)`
(IGNORECASE), in pattern order; returns the rest after the 3-letter name. -/
def monthAbbrAlt (s : List Char) : Option (List Char) :=
  firstSome ["Jan".data, "Feb".data, "Mar".data, "Apr".data, "May".data, "Jun".data,
             "Jul".data, "Aug".data, "Sep".data, "Oct".data, "Nov".data, "Dec".data]
    (fun nm => stripPrefCI nm s)

/-- Greedy `\s+` whose successor token rejects whitespace (true for every use in
the three date shapes): the maximal whitespace run, failing if empty. -/
def wsReq (s : List Char) : Option (Nat × List Char) :=
  let k := (s.takeWhile isWsPy).length
  if k = 0 then none else some (k, s.drop k)

/-- Anchored match of shape 1: one or two digits, a slash-or-hyphen separator,
one or two digits, a separator, then two to four digits; returns the matched
length. `\d{1,2}` is greedy with backtracking (2 digits, then 1). -/
def matchP1At (s : List Char) : Option Nat :=
  firstSome [2, 1] fun n1 =>
    if digitsRunLen s < n1 then none
    else
      (sepCheck (s.drop n1)).bind fun r2 =>
        firstSome [2, 1] fun n2 =>
          if digitsRunLen r2 < n2 then none
          else
            (sepCheck (r2.drop n2)).bind fun r4 =>
              (takeUpToDigits 2 4 r4).map fun n3 => n1 + 1 + n2 + 1 + n3

/-- Anchored match of shape 2,
`\d{1,2}\s+(?:Jan|...|Dec)[a-z]*\s+\d{2,4}` (IGNORECASE); returns the matched
length. `[a-z]*` under IGNORECASE takes the maximal ASCII-letter run. -/
def matchP2At (s : List Char) : Option Nat :=
  firstSome [2, 1] fun n1 =>
    if digitsRunLen s < n1 then none
    else
      (wsReq (s.drop n1)).bind fun (k1, r1) =>
        (monthAbbrAlt r1).bind fun r2 =>
          let ll := (r2.takeWhile Char.isAlpha).length
          (wsReq (r2.drop ll)).bind fun (k2, r3) =>
            (takeUpToDigits 2 4 r3).map fun ny => n1 + k1 + 3 + ll + k2 + ny

/-- The `,?` of shape 3: greedy, so the comma-consuming branch is tried first. -/
def commaOpts : List Char → List (Nat × List Char)
  | ',' :: r => [(1, r), (0, ',' :: r)]
  | s => [(0, s)]

/-- Anchored match of shape 3,
`(?:Jan|...|Dec)[a-z]*\s+\d{1,2},?\s+\d{2,4}` (IGNORECASE); returns the
matched length. -/
def matchP3At (s : List Char) : Option Nat :=
  (monthAbbrAlt s).bind fun r1 =>
    let ll := (r1.takeWhile Char.isAlpha).length
    (wsReq (r1.drop ll)).bind fun (k1, r2) =>
      firstSome [2, 1] fun nd =>
        if digitsRunLen r2 < nd then none
        else
          firstSome (commaOpts (r2.drop nd)) fun (ck, r4) =>
            (wsReq r4).bind fun (k2, r5) =>
              (takeUpToDigits 2 4 r5).map fun ny => 3 + ll + k1 + nd + ck + k2 + ny

/-- `re.search` with an anchored matcher returning a length: scan positions left
to right, return the matched substring (`match.group(0)`) of the first hit. -/
def searchMatch (p : List Char → Option Nat) : List Char → Option (List Char)
  | [] =>
    match p [] with
    | some n => some (List.take n [])
    | none => none
  | s@(_ :: rest) =>
    match p s with
    | some n => some (s.take n)
    | none => searchMatch p rest

/- #### datetime.strptime, following CPython `_strptime` -/

/-- A directive or literal of a strptime format string. `ws` is the `\s+` that
CPython substitutes for literal whitespace in the format. -/
inductive Tok : Type
  | lit (c : Char)
  | ws
  | dayD
  | monthM
  | yearY
  | yearLittleY
  | monthAbbrB
  | monthFullB
deriving DecidableEq, Repr

/-- Partially collected strptime values. -/
structure PV where
  d : Option Nat := none
  m : Option Nat := none
  yr : Option Nat := none
deriving DecidableEq, Repr

/-- Candidates of CPython's `%d` regex
`3[01]|[12]\d|0[1-9]|[1-9]| [1-9]`, in alternation order. -/
def dayCands (s : List Char) : List (Nat × List Char) :=
  (match s with
   | '3' :: c :: r => if c = '0' || c = '1' then [(30 + digitVal c, r)] else []
   | _ => []) ++
  (match s with
   | c1 :: c2 :: r =>
     if (c1 = '1' || c1 = '2') && c2.isDigit then [(10 * digitVal c1 + digitVal c2, r)] else []
   | _ => []) ++
  (match s with
   | '0' :: c :: r => if '1' ≤ c && c ≤ '9' then [(digitVal c, r)] else []
   | _ => []) ++
  (match s with
   | c :: r => if '1' ≤ c && c ≤ '9' then [(digitVal c, r)] else []
   | _ => []) ++
  (match s with
   | ' ' :: c :: r => if '1' ≤ c && c ≤ '9' then [(digitVal c, r)] else []
   | _ => [])

/-- Candidates of CPython's `%m` regex `1[0-2]|0[1-9]|[1-9]`, in order. -/
def monthCands (s : List Char) : List (Nat × List Char) :=
  (match s with
   | '1' :: c :: r => if c = '0' || c = '1' || c = '2' then [(10 + digitVal c, r)] else []
   | _ => []) ++
  (match s with
   | '0' :: c :: r => if '1' ≤ c && c ≤ '9' then [(digitVal c, r)] else []
   | _ => []) ++
  (match s with
   | c :: r => if '1' ≤ c && c ≤ '9' then [(digitVal c, r)] else []
   | _ => [])

/-- Exactly `n` digits, accumulated left to right (CPython's `%Y` is exactly
four digits, `%y` exactly two). -/
def takeNDigits : Nat → List Char → Nat → Option (Nat × List Char)
  | 0, s, acc => some (acc, s)
  | n + 1, c :: r, acc => if c.isDigit then takeNDigits n r (10 * acc + digitVal c) else none
  | _ + 1, [], _ => none

/-- CPython's two-digit-year rule: years up to 68 map into the 2000s. -/
def centuryFix (v : Nat) : Nat := if v ≤ 68 then 2000 + v else 1900 + v

/-- Abbreviated month names as alternated by CPython's `%b` regex
(sorted by length, descending, stable — all length 3, so original order). -/
def abbrMonthTable : List (List Char × Nat) :=
  [("jan".data, 1), ("feb".data, 2), ("mar".data, 3), ("apr".data, 4),
   ("may".data, 5), ("jun".data, 6), ("jul".data, 7), ("aug".data, 8),
   ("sep".data, 9), ("oct".data, 10), ("nov".data, 11), ("dec".data, 12)]

/-- Full month names as alternated by CPython's `%B` regex (sorted by length,
descending, stable). -/
def fullMonthTable : List (List Char × Nat) :=
  [("september".data, 9), ("february".data, 2), ("november".data, 11),
   ("december".data, 12), ("january".data, 1), ("october".data, 10),
   ("august".data, 8), ("march".data, 3), ("april".data, 4),
   ("june".data, 6), ("july".data, 7), ("may".data, 5)]

/-- Month-name alternation candidates (IGNORECASE), in table order. -/
def monthNameCands (table : List (List Char × Nat)) (s : List Char) :
    List (Nat × List Char) :=
  table.filterMap fun (nm, v) => (stripPrefCI nm s).map fun r => (v, r)

/-- Candidate `(collected values, rest)` pairs for one token, in the order the
regex engine would try them. -/
def applyTok (pv : PV) : Tok → List Char → List (PV × List Char)
  | .lit c, s =>
    match s with
    | c' :: r => if c' = c then [(pv, r)] else []
    | [] => []
  | .ws, s =>
    -- `\s+`: in every format below the next token rejects whitespace, so the
    -- maximal run is the only viable candidate.
    match wsReq s with
    | some (_, r) => [(pv, r)]
    | none => []
  | .dayD, s => (dayCands s).map fun (v, r) => ({ pv with d := some v }, r)
  | .monthM, s => (monthCands s).map fun (v, r) => ({ pv with m := some v }, r)
  | .yearY, s =>
    match takeNDigits 4 s 0 with
    | some (v, r) => [({ pv with yr := some v }, r)]
    | none => []
  | .yearLittleY, s =>
    match takeNDigits 2 s 0 with
    | some (v, r) => [({ pv with yr := some (centuryFix v) }, r)]
    | none => []
  | .monthAbbrB, s => (monthNameCands abbrMonthTable s).map fun (v, r) =>
      ({ pv with m := some v }, r)
  | .monthFullB, s => (monthNameCands fullMonthTable s).map fun (v, r) =>
      ({ pv with m := some v }, r)

/-- Run a token list against the input with backtracking; the whole input must
be consumed (CPython raises "unconverted data remains" otherwise). -/
def runToks : List Tok → List Char → PV → Option PV
  | [], s, pv => if s.isEmpty then some pv else none
  | t :: ts, s, pv =>
    (applyTok pv t s).foldr
      (fun c acc =>
        match runToks ts c.2 c.1 with
        | some v => some v
        | none => acc)
      none

/-- Number of days in a month, per `datetime.date` validity. -/
def daysInMonth (y m : Nat) : Nat :=
  if m = 2 then (if y % 4 = 0 && (y % 100 ≠ 0 || y % 400 = 0) then 29 else 28)
  else if m = 4 || m = 6 || m = 9 || m = 11 then 30
  else 31

/-- `datetime.date(y, m, d)` validity check (`MINYEAR = 1`, `MAXYEAR = 9999`);
an invalid combination raises `ValueError`, which the source swallows. -/
def mkValidDate (y m d : Nat) : Option PyDate :=
  if 1 ≤ y && y ≤ 9999 && 1 ≤ m && m ≤ 12 && 1 ≤ d && d ≤ daysInMonth y m then
    some ⟨y, m, d⟩
  else none

/-- `datetime.strptime(s, fmt).date()` for one tokenized format, `none` on
`ValueError` (missing directives default to 1900-01-01 as in CPython). -/
def strptimeDate (toks : List Tok) (s : List Char) : Option PyDate :=
  match runToks toks s {} with
  | some pv => mkValidDate (pv.yr.getD 1900) (pv.m.getD 1) (pv.d.getD 1)
  | none => none

/-- The source's ordered format template list, tokenized:
d/m/Y, d-m-Y, d/m/y, d-m-y, d b Y, d B Y, b d Y, B d Y, m/d/Y, m-d-Y, m/d/y,
m-d-y. -/
def fmtList : List (List Tok) :=
  [[.dayD, .lit '/', .monthM, .lit '/', .yearY],
   [.dayD, .lit '-', .monthM, .lit '-', .yearY],
   [.dayD, .lit '/', .monthM, .lit '/', .yearLittleY],
   [.dayD, .lit '-', .monthM, .lit '-', .yearLittleY],
   [.dayD, .ws, .monthAbbrB, .ws, .yearY],
   [.dayD, .ws, .monthFullB, .ws, .yearY],
   [.monthAbbrB, .ws, .dayD, .ws, .yearY],
   [.monthFullB, .ws, .dayD, .ws, .yearY],
   [.monthM, .lit '/', .dayD, .lit '/', .yearY],
   [.monthM, .lit '-', .dayD, .lit '-', .yearY],
   [.monthM, .lit '/', .dayD, .lit '/', .yearLittleY],
   [.monthM, .lit '-', .dayD, .lit '-', .yearLittleY]]

/-- The inner format loop of `extract_date`: first template that parses wins. -/
def tryFormats (s : List Char) : Option PyDate :=
  firstSome fmtList fun toks => strptimeDate toks s

/-- The outer pattern loop of `extract_date`: for each shape in priority order,
search the text; on a match, try all format templates; if none parses, fall
through to the next shape (the source's loop structure). -/
def extractDateLoop : List (List Char → Option Nat) → List Char → Option PyDate
  | [], _ => none
  | p :: ps, text =>
    match searchMatch p text with
    | some g =>
      match tryFormats g with
      | some d => some d
      | none => extractDateLoop ps text
    | none => extractDateLoop ps text

/-- `extract_date` from src/ocr_processor.py. -/
def extract_date (text : List Char) : Option PyDate :=
  extractDateLoop [matchP1At, matchP2At, matchP3At] text

/- ### PrescriptionData (src/models.py lines 6-16) and uuid rendering -/

/-- Lowercase hexadecimal digit, as used by `str(uuid.uuid4())`. -/
def hexDigit (n : Nat) : Char := if n < 10 then Char.ofNat (48 + n) else Char.ofNat (87 + n)

/-- Big-endian fixed-width hexadecimal rendering of `n` (width `w`). -/
def toHexW : Nat → Nat → List Char
  | 0, _ => []
  | w + 1, n => toHexW w (n / 16) ++ [hexDigit (n % 16)]

/-- `str(uuid.uuid4())` modelled on the fresh 128-bit value `r` drawn by the
collaborator: 32 lowercase hex digits grouped 8-4-4-4-12 with hyphens. -/
def uuidRender (r : Nat) : List Char :=
  let h := toHexW 32 r
  h.take 8 ++ '-' :: (h.drop 8).take 4 ++ '-' :: (h.drop 12).take 4 ++
    '-' :: (h.drop 16).take 4 ++ '-' :: h.drop 20

/-- The structured record of src/models.py. `patient_id` is filled by the
`default_factory` from a fresh uuid; all other fields default to `None`. -/
structure PrescriptionData where
  patient_id : List Char
  name : Option (List Char) := none
  age : Option (List Char) := none
  gender : Option (List Char) := none
  visit_date : Option PyDate := none
  doctor_notes : Option (List Char) := none
  raw_ocr_text : Option (List Char) := none
deriving DecidableEq, Repr

/- ### process_prescription_image (src/ocr_processor.py lines 91-142) -/

/-- Outcome of `Image.open` + `pytesseract.image_to_string` on the uploaded
bytes: the OCR engine binary may be missing (`TesseractNotFoundError`), the
call may raise a generic exception, or it produces text. -/
inductive OcrOutcome : Type
  | engineMissing
  | genericFailure
  | text (t : List Char)
deriving DecidableEq, Repr

/-- An extraction statement inside the `try` block that hypothetically raises;
the five statements run in source order. -/
inductive ExtractStep : Type
  | nameS
  | ageS
  | genderS
  | dateS
  | notesS
deriving DecidableEq, Repr

/-- Python exceptions that can leave the orchestrator. -/
inductive PyError : Type
  | httpExc (status : Nat) (detail : List Char)
  | nameErr (missing : List Char)
deriving DecidableEq, Repr

/-- Names bound at module level in src/ocr_processor.py when
`process_prescription_image` executes: the module's imports (lines 1-8), the
logging globals, and its own defs. `HTTPException` is not among them: the only
place it is imported is inside the main-guard test block at the bottom of the
file, which never runs when the module is imported by the application. -/
def ocrModuleTopLevelNames : List (List Char) :=
  ["pytesseract".data, "Image".data, "io".data, "re".data, "datetime".data,
   "Union".data, "logging".data, "PrescriptionData".data, "logger".data,
   "extract_field".data, "extract_date".data, "extract_notes".data,
   "process_prescription_image".data]

/-- What line 134 (`raise HTTPException(status_code=500, detail=...)`) actually
raises: constructing `HTTPException` first resolves the name; an unbound name
raises `NameError` instead, which propagates out of the handler. -/
def tesseractHandlerRaises : PyError :=
  if ocrModuleTopLevelNames.contains "HTTPException".data then
    .httpExc 500 "OCR processing failed: Tesseract not found.".data
  else .nameErr "HTTPException".data

/-- The fallback text stored by the generic handler (line 138) via
`extracted_data.raw_ocr_text or "Error during OCR processing."`. -/
def placeholderText : List Char := "Error during OCR processing.".data

/-- Python's `x or y` on an optional string: `None` and `""` are falsy. -/
def pyOr (a : Option (List Char)) (b : List Char) : Option (List Char) :=
  match a with
  | none => some b
  | some s => if s = [] then some b else some s

/-- The field keyword lists passed at lines 120-122. -/
def nameKeywords : List (List Char) := ["Patient Name".data, "Name".data]
def ageKeywords : List (List Char) := ["Age".data]
def genderKeywords : List (List Char) := ["Gender".data, "Sex".data]

/-- `process_prescription_image`: the whole body is one `try` block. `uuid` is
the fresh identifier drawn by the record's `default_factory`; `ocr` is the OCR
collaborator's outcome; `fault` injects a hypothetical exception at one
extraction statement (Python control flow then jumps from that statement to
the generic `except Exception` handler, skipping the statements between). -/
def process_prescription_image (uuid : List Char) (ocr : OcrOutcome)
    (fault : Option ExtractStep) : Except PyError PrescriptionData :=
  let init : PrescriptionData := { patient_id := uuid }
  match ocr with
  | .engineMissing => .error tesseractHandlerRaises
  | .genericFailure => .ok { init with raw_ocr_text := pyOr init.raw_ocr_text placeholderText }
  | .text t =>
    let withRaw := { init with raw_ocr_text := some t }
    match fault with
    | none =>
      .ok { withRaw with
            name := extract_field t nameKeywords
            age := extract_field t ageKeywords
            gender := extract_field t genderKeywords
            visit_date := extract_date t
            doctor_notes := extract_notes t }
    | some .nameS =>
      .ok { withRaw with raw_ocr_text := pyOr (some t) placeholderText }
    | some .ageS =>
      .ok { withRaw with
            name := extract_field t nameKeywords
            raw_ocr_text := pyOr (some t) placeholderText }
    | some .genderS =>
      .ok { withRaw with
            name := extract_field t nameKeywords
            age := extract_field t ageKeywords
            raw_ocr_text := pyOr (some t) placeholderText }
    | some .dateS =>
      .ok { withRaw with
            name := extract_field t nameKeywords
            age := extract_field t ageKeywords
            gender := extract_field t genderKeywords
            raw_ocr_text := pyOr (some t) placeholderText }
    | some .notesS =>
      .ok { withRaw with
            name := extract_field t nameKeywords
            age := extract_field t ageKeywords
            gender := extract_field t genderKeywords
            visit_date := extract_date t
            raw_ocr_text := pyOr (some t) placeholderText }

/-- The orchestrator invoked with the OCR collaborator modelled as a
deterministic function of the image bytes, no injected fault, and the fresh
128-bit uuid value `r`. -/
def processDeterministic (ocrFun : List Nat → List Char) (r : Nat)
    (img : List Nat) : Except PyError PrescriptionData :=
  process_prescription_image (uuidRender r) (.text (ocrFun img)) none

/- ### The caller's error surface (src/main.py lines 73-83) -/

/-- How `upload_prescription` surfaces an exception from the OCR processor:
an `HTTPException` is re-raised unchanged (distinct error kind); anything else
falls into the generic `except Exception` branch, a 500 whose detail starts
with "Error processing image:". -/
def uploadSurface (e : PyError) : Nat × List Char :=
  match e with
  | .httpExc status detail => (status, detail)
  | .nameErr _ => (500, "Error processing image:".data)

/- ### The claim's reading of the notes selection rule -/

/-- Match ends of every keyword occurrence at this single position. -/
def occEndsHere (s : List Char) : List Nat :=
  notesKeywords.filterMap fun kw => kwNotesMatchAt kw s

/-- Modelled from the spec/claim wording for C2: the match ends of all keyword
occurrences anywhere in the text (the code instead only considers the leftmost
occurrence of each keyword). -/
def allOccEnds : List Char → List Nat
  | [] => occEndsHere []
  | s@(_ :: rest) => occEndsHere s ++ (allOccEnds rest).map (· + 1)

/-- Modelled from the spec/claim wording for C2: select, among all keyword
occurrences in the text, the one whose match ends at the highest offset; take
everything after it, truncated at the first blank line or
`Signature:`/`Doctor:` marker, then stripped. -/
def specNotesLastOcc (text : List Char) : Option (List Char) :=
  match (allOccEnds text).max? with
  | none => none
  | some e =>
    let g := notesClean (text.drop e)
    if g = [] then none else some g

/- ## Helper lemmas -/

/-- `v` is a contiguous substring of `t`. -/
def SubstringOf (v t : List Char) : Prop := ∃ p q, t = p ++ v ++ q

theorem substringOf_trans {a b c : List Char} (h1 : SubstringOf a b)
    (h2 : SubstringOf b c) : SubstringOf a c := by
  obtain ⟨p1, q1, rfl⟩ := h1
  obtain ⟨p2, q2, rfl⟩ := h2
  exact ⟨p2 ++ p1, q1 ++ q2, by simp⟩

theorem trimL_substring (s : List Char) : SubstringOf (trimL s) s :=
  ⟨s.takeWhile isWsPy, [], by simp [trimL, List.takeWhile_append_dropWhile]⟩

theorem trimR_eq_append (s : List Char) :
    s = trimR s ++ (s.reverse.takeWhile isWsPy).reverse := by
  rw [trimR, ← List.reverse_append, List.takeWhile_append_dropWhile, List.reverse_reverse]

theorem trimR_substring (s : List Char) : SubstringOf (trimR s) s :=
  ⟨[], (s.reverse.takeWhile isWsPy).reverse, by simpa using trimR_eq_append s⟩

theorem pystrip_substring (s : List Char) : SubstringOf (pystrip s) s :=
  substringOf_trans (substringOf_trans (trimR_substring (trimL s)) (trimL_substring s))
    ⟨[], [], by simp⟩

theorem truncBefore_eq_append (s : List Char) :
    ∃ q, s = truncBefore s ++ q := by
  induction s with
  | nil => exact ⟨[], rfl⟩
  | cons c r ih =>
    obtain ⟨q, hq⟩ := ih
    by_cases h : fieldBoundaryAt (c :: r)
    · exact ⟨c :: r, by simp [truncBefore, h]⟩
    · exact ⟨q, by simpa [truncBefore, h] using congrArg (c :: ·) hq⟩

theorem truncBefore_substring (s : List Char) : SubstringOf (truncBefore s) s := by
  obtain ⟨q, hq⟩ := truncBefore_eq_append s
  exact ⟨[], q, by simpa using hq⟩

theorem notesTrunc_eq_append (s : List Char) :
    ∃ q, s = notesTrunc s ++ q := by
  induction s with
  | nil => exact ⟨[], rfl⟩
  | cons c r ih =>
    obtain ⟨q, hq⟩ := ih
    by_cases h : notesBoundaryAt (c :: r)
    · exact ⟨c :: r, by simp [notesTrunc, h]⟩
    · exact ⟨q, by simpa [notesTrunc, h] using congrArg (c :: ·) hq⟩

theorem notesTrunc_substring (s : List Char) : SubstringOf (notesTrunc s) s := by
  obtain ⟨q, hq⟩ := notesTrunc_eq_append s
  exact ⟨[], q, by simpa using hq⟩

theorem cleanValue_substring (v : List Char) : SubstringOf (cleanValue v) v :=
  substringOf_trans (pystrip_substring _)
    (substringOf_trans (truncBefore_substring _) (pystrip_substring v))

theorem notesClean_substring (s : List Char) : SubstringOf (notesClean s) s :=
  substringOf_trans (pystrip_substring _)
    (substringOf_trans (notesTrunc_substring _) (pystrip_substring s))

theorem dropWhileWs_idem (l : List Char) :
    (l.dropWhile isWsPy).dropWhile isWsPy = l.dropWhile isWsPy := by
  induction l with
  | nil => rfl
  | cons a l ih =>
    by_cases h : isWsPy a
    · simpa [List.dropWhile_cons, h] using ih
    · simp [List.dropWhile_cons, h]

theorem trimL_trimL (s : List Char) : trimL (trimL s) = trimL s :=
  dropWhileWs_idem s

theorem trimR_trimR (s : List Char) : trimR (trimR s) = trimR s := by
  simp only [trimR, List.reverse_reverse]
  rw [dropWhileWs_idem]

theorem length_dropWhileWs_le (l : List Char) :
    (l.dropWhile isWsPy).length ≤ l.length := by
  induction l with
  | nil => simp
  | cons a l ih =>
    by_cases h : isWsPy a
    · rw [List.dropWhile_cons_of_pos h]
      exact le_trans ih (by simp)
    · rw [List.dropWhile_cons_of_neg h]

theorem trimL_of_trimL_eq {x : List Char} (h : trimL x = x) :
    trimL (trimR x) = trimR x := by
  cases hx : x with
  | nil => subst hx; rfl
  | cons a t =>
    subst hx
    have ha : isWsPy a = false := by
      cases h' : isWsPy a with
      | false => rfl
      | true =>
        exfalso
        have h2 : List.dropWhile isWsPy t = a :: t := by
          have : trimL (a :: t) = List.dropWhile isWsPy t := by
            simp [trimL, List.dropWhile_cons, h']
          rw [← this, h]
        have hle := length_dropWhileWs_le t
        rw [h2] at hle
        simp at hle
    have hpref : a :: t = trimR (a :: t) ++ ((a :: t).reverse.takeWhile isWsPy).reverse :=
      trimR_eq_append (a :: t)
    cases htr : trimR (a :: t) with
    | nil => rfl
    | cons b u =>
      rw [htr] at hpref
      have hb : a = b := by
        have := congrArg (·.head?) hpref
        simpa using this
      subst hb
      simp [trimL, List.dropWhile_cons, ha]

theorem pystrip_idem (s : List Char) : pystrip (pystrip s) = pystrip s := by
  have h1 : trimL (trimL s) = trimL s := trimL_trimL s
  have h2 : trimL (trimR (trimL s)) = trimR (trimL s) := trimL_of_trimL_eq h1
  simp only [pystrip, h2, trimR_trimR]

theorem cleanValue_stripped (v : List Char) : pystrip (cleanValue v) = cleanValue v :=
  pystrip_idem _

theorem notesClean_stripped (s : List Char) : pystrip (notesClean s) = notesClean s :=
  pystrip_idem _

theorem stripPrefCI_suffix {kw s r : List Char} (h : stripPrefCI kw s = some r) :
    ∃ p, s = p ++ r := by
  induction kw generalizing s with
  | nil =>
    simp only [stripPrefCI] at h
    exact ⟨[], by simpa using h⟩
  | cons k ks ih =>
    cases s with
    | nil => simp [stripPrefCI] at h
    | cons c cs =>
      simp only [stripPrefCI] at h
      by_cases hc : k.toLower = c.toLower
      · rw [if_pos hc] at h
        obtain ⟨p, hp⟩ := ih h
        exact ⟨c :: p, by simp [hp]⟩
      · rw [if_neg hc] at h
        exact absurd h (by simp)

theorem kwFieldMatchAt_nil (kw : List Char) : kwFieldMatchAt kw [] = none := by
  cases kw with
  | nil => rfl
  | cons k ks => rfl

theorem afterColonCapture_substring (r : List Char) :
    SubstringOf (afterColonCapture r) r := by
  refine ⟨r.takeWhile isWsPy, (r.dropWhile isWsPy).dropWhile (fun c => !(c = '\n')), ?_⟩
  have h1 : r = r.takeWhile isWsPy ++ r.dropWhile isWsPy :=
    (List.takeWhile_append_dropWhile (p := isWsPy) (l := r)).symm
  have h2 : r.dropWhile isWsPy =
      afterColonCapture r ++ (r.dropWhile isWsPy).dropWhile (fun c => !(c = '\n')) := by
    have := (List.takeWhile_append_dropWhile
      (p := fun c => !(c = '\n')) (l := r.dropWhile isWsPy)).symm
    simp only [afterColonCapture, lineCapture]
    exact this
  rw [List.append_assoc, ← h2]
  exact h1

theorem kwFieldMatchAt_substring {kw s raw : List Char}
    (h : kwFieldMatchAt kw s = some raw) : SubstringOf raw s := by
  unfold kwFieldMatchAt at h
  split at h
  · rename_i r heq
    simp only [Option.some.injEq] at h
    obtain ⟨p, hp⟩ := stripPrefCI_suffix heq
    obtain ⟨p2, q2, hq⟩ := afterColonCapture_substring r
    subst h
    refine ⟨p ++ ':' :: p2, q2, ?_⟩
    generalize hA : afterColonCapture r = A at hq ⊢
    rw [hp, hq]
    simp
  · simp at h

theorem searchKW_substring {kw text raw : List Char}
    (h : searchKW kw text = some raw) : SubstringOf raw text := by
  induction text with
  | nil =>
    rw [searchKW, kwFieldMatchAt_nil] at h
    exact absurd h (by simp)
  | cons c rest ih =>
    rw [searchKW] at h
    cases hm : kwFieldMatchAt kw (c :: rest) with
    | some v =>
      rw [hm] at h
      simp only [Option.some.injEq] at h
      subst h
      exact kwFieldMatchAt_substring hm
    | none =>
      rw [hm] at h
      obtain ⟨p, q, hpq⟩ := ih h
      exact ⟨c :: p, q, by simp [hpq]⟩

theorem extract_field_origin {text : List Char} {kws : List (List Char)}
    {v : List Char} (h : extract_field text kws = some v) :
    ∃ kw ∈ kws, ∃ raw, searchKW kw text = some raw ∧ v = cleanValue raw ∧ v ≠ [] := by
  induction kws with
  | nil => simp [extract_field] at h
  | cons kw rest ih =>
    rw [extract_field] at h
    cases hs : searchKW kw text with
    | some raw =>
      rw [hs] at h
      simp only at h
      by_cases hv : cleanValue raw = []
      · rw [if_pos hv] at h
        obtain ⟨kw2, hmem, raw2, hs2, hv2, hne⟩ := ih h
        exact ⟨kw2, List.mem_cons_of_mem _ hmem, raw2, hs2, hv2, hne⟩
      · rw [if_neg hv] at h
        simp only [Option.some.injEq] at h
        exact ⟨kw, List.mem_cons_self _ _, raw, hs, h.symm, h ▸ hv⟩
    | none =>
      rw [hs] at h
      obtain ⟨kw2, hmem, raw2, hs2, hv2, hne⟩ := ih h
      exact ⟨kw2, List.mem_cons_of_mem _ hmem, raw2, hs2, hv2, hne⟩

theorem occursCI_false_stripPrefCI {kw s : List Char} (h : occursCI kw s = false) :
    stripPrefCI kw s = none := by
  cases s with
  | nil =>
    rw [occursCI] at h
    cases hs : stripPrefCI kw [] with
    | none => rfl
    | some r => rw [hs] at h; simp at h
  | cons c rest =>
    rw [occursCI] at h
    simp only [Bool.or_eq_false_iff] at h
    cases hs : stripPrefCI kw (c :: rest) with
    | none => rfl
    | some r => rw [hs] at h; simp at h

theorem occursCI_false_tail {kw : List Char} {c : Char} {rest : List Char}
    (h : occursCI kw (c :: rest) = false) : occursCI kw rest = false := by
  rw [occursCI] at h
  simp only [Bool.or_eq_false_iff] at h
  exact h.2

theorem occursCI_false_searchKW {kw text : List Char} (h : occursCI kw text = false) :
    searchKW kw text = none := by
  induction text with
  | nil => rw [searchKW, kwFieldMatchAt_nil]
  | cons c rest ih =>
    rw [searchKW]
    have h1 : kwFieldMatchAt kw (c :: rest) = none := by
      rw [kwFieldMatchAt, occursCI_false_stripPrefCI h]
    rw [h1, ih (occursCI_false_tail h)]

theorem cleanValue_of_strip_empty {raw : List Char} (h : pystrip raw = []) :
    cleanValue raw = [] := by
  rw [cleanValue, h]
  rfl

theorem extract_field_none {text : List Char} {kws : List (List Char)}
    (h : ∀ kw ∈ kws, ∀ raw, searchKW kw text = some raw → pystrip raw = []) :
    extract_field text kws = none := by
  induction kws with
  | nil => rfl
  | cons kw rest ih =>
    rw [extract_field]
    cases hs : searchKW kw text with
    | some raw =>
      have hkw : pystrip raw = [] := h kw (List.mem_cons_self _ _) raw hs
      simp only [cleanValue_of_strip_empty hkw, if_pos rfl]
      exact ih fun kw2 hmem raw2 hs2 => h kw2 (List.mem_cons_of_mem _ hmem) raw2 hs2
    | none =>
      exact ih fun kw2 hmem raw2 hs2 => h kw2 (List.mem_cons_of_mem _ hmem) raw2 hs2

/- #### notes loop invariants -/

theorem notesStep_clean {text kw : List Char} {acc : Option (Nat × List Char)}
    (hacc : ∀ p, acc = some p → p.2 = notesClean (text.drop p.1)) :
    ∀ p, notesStep text kw acc = some p → p.2 = notesClean (text.drop p.1) := by
  intro p hp
  unfold notesStep at hp
  cases hse : searchNotesEnd kw text with
  | some e =>
    rw [hse] at hp
    cases hAcc : acc with
    | none =>
      rw [hAcc] at hp
      simp only [Option.some.injEq] at hp
      rw [← hp]
    | some be =>
      rw [hAcc] at hp
      obtain ⟨b, g⟩ := be
      simp only at hp
      by_cases hlt : b < e
      · rw [if_pos hlt] at hp
        simp only [Option.some.injEq] at hp
        rw [← hp]
      · rw [if_neg hlt] at hp
        exact hacc p (by rw [hAcc, ← hp])
  | none =>
    rw [hse] at hp
    exact hacc p hp

theorem notesStep_mono {text kw : List Char} {e0 : Nat} {g0 : List Char} :
    ∃ e1 g1, notesStep text kw (some (e0, g0)) = some (e1, g1) ∧ e0 ≤ e1 := by
  unfold notesStep
  cases hse : searchNotesEnd kw text with
  | some e =>
    simp only
    by_cases hlt : e0 < e
    · rw [if_pos hlt]
      exact ⟨e, _, rfl, le_of_lt hlt⟩
    · rw [if_neg hlt]
      exact ⟨e0, g0, rfl, le_refl _⟩
  | none => exact ⟨e0, g0, rfl, le_refl _⟩

theorem notesStep_ge {text kw : List Char} {acc : Option (Nat × List Char)} {e' : Nat}
    (hse : searchNotesEnd kw text = some e') :
    ∃ e1 g1, notesStep text kw acc = some (e1, g1) ∧ e' ≤ e1 := by
  unfold notesStep
  rw [hse]
  cases acc with
  | none => exact ⟨e', _, rfl, le_refl _⟩
  | some be =>
    obtain ⟨b, g⟩ := be
    simp only
    by_cases hlt : b < e'
    · rw [if_pos hlt]
      exact ⟨e', _, rfl, le_refl _⟩
    · rw [if_neg hlt]
      exact ⟨b, g, rfl, Nat.le_of_not_lt hlt⟩

theorem notesStep_origin {text kw : List Char} {acc : Option (Nat × List Char)}
    {e : Nat} {g : List Char} (hp : notesStep text kw acc = some (e, g)) :
    acc = some (e, g) ∨ searchNotesEnd kw text = some e := by
  unfold notesStep at hp
  cases hse : searchNotesEnd kw text with
  | some e1 =>
    rw [hse] at hp
    cases hAcc : acc with
    | none =>
      rw [hAcc] at hp
      simp only [Option.some.injEq, Prod.mk.injEq] at hp
      exact Or.inr (congrArg some hp.1)
    | some be =>
      rw [hAcc] at hp
      obtain ⟨b, g0⟩ := be
      simp only at hp
      by_cases hlt : b < e1
      · rw [if_pos hlt] at hp
        simp only [Option.some.injEq, Prod.mk.injEq] at hp
        exact Or.inr (congrArg some hp.1)
      · rw [if_neg hlt] at hp
        exact Or.inl hp
  | none =>
    rw [hse] at hp
    exact Or.inl hp

theorem notesLoop_clean (text : List Char) :
    ∀ (kws : List (List Char)) (acc : Option (Nat × List Char)),
      (∀ p, acc = some p → p.2 = notesClean (text.drop p.1)) →
      ∀ p, notesLoop text kws acc = some p → p.2 = notesClean (text.drop p.1) := by
  intro kws
  induction kws with
  | nil => intro acc hacc p hp; exact hacc p hp
  | cons kw rest ih =>
    intro acc hacc p hp
    rw [notesLoop] at hp
    exact ih _ (notesStep_clean hacc) p hp

theorem notesLoop_mono (text : List Char) :
    ∀ (kws : List (List Char)) (e0 : Nat) (g0 : List Char),
      ∃ e g, notesLoop text kws (some (e0, g0)) = some (e, g) ∧ e0 ≤ e := by
  intro kws
  induction kws with
  | nil => intro e0 g0; exact ⟨e0, g0, rfl, le_refl _⟩
  | cons kw rest ih =>
    intro e0 g0
    rw [notesLoop]
    obtain ⟨e1, g1, hstep, hle1⟩ := @notesStep_mono text kw e0 g0
    rw [hstep]
    obtain ⟨e2, g2, hres, hle2⟩ := ih e1 g1
    exact ⟨e2, g2, hres, le_trans hle1 hle2⟩

theorem notesLoop_le (text : List Char) :
    ∀ (kws : List (List Char)) (acc : Option (Nat × List Char)) (kw : List Char),
      kw ∈ kws → ∀ e', searchNotesEnd kw text = some e' →
      ∃ e g, notesLoop text kws acc = some (e, g) ∧ e' ≤ e := by
  intro kws
  induction kws with
  | nil => intro acc kw hmem; simp at hmem
  | cons kw0 rest ih =>
    intro acc kw hmem e' hse
    rw [notesLoop]
    rcases List.mem_cons.mp hmem with heq | hmem2
    · subst heq
      obtain ⟨e1, g1, hstep, hle1⟩ := @notesStep_ge text kw acc e' hse
      rw [hstep]
      obtain ⟨e2, g2, hres, hle2⟩ := notesLoop_mono text rest e1 g1
      exact ⟨e2, g2, hres, le_trans hle1 hle2⟩
    · exact ih _ kw hmem2 e' hse

theorem notesLoop_origin (text : List Char) :
    ∀ (kws : List (List Char)) (acc : Option (Nat × List Char)) (e : Nat) (g : List Char),
      notesLoop text kws acc = some (e, g) →
      acc = some (e, g) ∨ ∃ kw ∈ kws, searchNotesEnd kw text = some e := by
  intro kws
  induction kws with
  | nil => intro acc e g hp; exact Or.inl hp
  | cons kw rest ih =>
    intro acc e g hp
    rw [notesLoop] at hp
    rcases ih _ e g hp with hstep | ⟨kw2, hmem, hse2⟩
    · rcases notesStep_origin hstep with hacc | hse
      · exact Or.inl hacc
      · exact Or.inr ⟨kw, List.mem_cons_self _ _, hse⟩
    · exact Or.inr ⟨kw2, List.mem_cons_of_mem _ hmem, hse2⟩

/- #### uuid rendering lemmas -/

/-- Decode one hex digit character (inverse of `hexDigit` on its range). -/
def hexVal (c : Char) : Nat := if c.toNat ≤ 57 then c.toNat - 48 else c.toNat - 87

/-- Decode a big-endian hex digit list. -/
def ofHex (s : List Char) : Nat := s.foldl (fun acc c => 16 * acc + hexVal c) 0

theorem hexVal_hexDigit {m : Nat} (h : m < 16) : hexVal (hexDigit m) = m := by
  interval_cases m <;> decide

theorem hexDigit_ne_dash {m : Nat} (h : m < 16) : hexDigit m ≠ '-' := by
  interval_cases m <;> decide

theorem length_toHexW (w n : Nat) : (toHexW w n).length = w := by
  induction w generalizing n with
  | zero => rfl
  | succ w ih => simp [toHexW, ih]

theorem mem_toHexW_ne_dash (w : Nat) : ∀ (n : Nat) (c : Char), c ∈ toHexW w n → c ≠ '-' := by
  induction w with
  | zero => intro n c hc; simp [toHexW] at hc
  | succ w ih =>
    intro n c hc
    rw [toHexW] at hc
    rcases List.mem_append.mp hc with hl | hr
    · exact ih _ c hl
    · have : c = hexDigit (n % 16) := by simpa using hr
      rw [this]
      exact hexDigit_ne_dash (Nat.mod_lt _ (by omega))

theorem ofHex_append_digit (l : List Char) (c : Char) :
    ofHex (l ++ [c]) = 16 * ofHex l + hexVal c := by
  simp [ofHex, List.foldl_append]

theorem ofHex_toHexW (w n : Nat) : ofHex (toHexW w n) = n % 16 ^ w := by
  induction w generalizing n with
  | zero => simp [toHexW, ofHex, Nat.mod_one]
  | succ w ih =>
    rw [toHexW, ofHex_append_digit, ih, hexVal_hexDigit (Nat.mod_lt _ (by omega))]
    rw [pow_succ, Nat.mul_comm (16 ^ w) 16, Nat.mod_mul]
    omega

/-- Stripping the hyphens from a rendered uuid recovers the 32 hex digits. -/
theorem uuidRender_filter (r : Nat) :
    (uuidRender r).filter (fun c => !(c = '-')) = toHexW 32 r := by
  have hmem : ∀ c ∈ toHexW 32 r, (fun c => !(c = '-')) c = true := by
    intro c hc
    simpa using mem_toHexW_ne_dash 32 r c hc
  have hsub : ∀ (l : List Char), (∀ c ∈ toHexW 32 r, (fun c => !(c = '-')) c = true) →
      l ⊆ toHexW 32 r → l.filter (fun c => !(c = '-')) = l := by
    intro l hall hsubset
    exact List.filter_eq_self.mpr fun c hc => hall c (hsubset hc)
  set h := toHexW 32 r with hh
  have f1 : (h.take 8).filter (fun c => !(c = '-')) = h.take 8 :=
    hsub _ hmem (List.take_subset _ _)
  have f2 : ((h.drop 8).take 4).filter (fun c => !(c = '-')) = (h.drop 8).take 4 :=
    hsub _ hmem (fun c hc => List.drop_subset _ _ (List.take_subset _ _ hc))
  have f3 : ((h.drop 12).take 4).filter (fun c => !(c = '-')) = (h.drop 12).take 4 :=
    hsub _ hmem (fun c hc => List.drop_subset _ _ (List.take_subset _ _ hc))
  have f4 : ((h.drop 16).take 4).filter (fun c => !(c = '-')) = (h.drop 16).take 4 :=
    hsub _ hmem (fun c hc => List.drop_subset _ _ (List.take_subset _ _ hc))
  have f5 : (h.drop 20).filter (fun c => !(c = '-')) = h.drop 20 :=
    hsub _ hmem (List.drop_subset _ _)
  have hrecon : h.take 8 ++ (h.drop 8).take 4 ++ (h.drop 12).take 4 ++
      (h.drop 16).take 4 ++ h.drop 20 = h := by
    have e1 : h = h.take 8 ++ h.drop 8 := (List.take_append_drop 8 h).symm
    have e2 : h.drop 8 = (h.drop 8).take 4 ++ h.drop 12 := by
      have := (List.take_append_drop 4 (h.drop 8)).symm
      rwa [List.drop_drop] at this
    have e3 : h.drop 12 = (h.drop 12).take 4 ++ h.drop 16 := by
      have := (List.take_append_drop 4 (h.drop 12)).symm
      rwa [List.drop_drop] at this
    have e4 : h.drop 16 = (h.drop 16).take 4 ++ h.drop 20 := by
      have := (List.take_append_drop 4 (h.drop 16)).symm
      rwa [List.drop_drop] at this
    conv_rhs => rw [e1, e2, e3, e4]
    simp [List.append_assoc]
  rw [uuidRender, ← hh]
  simp only [List.filter_append, List.filter_cons]
  norm_num [f1, f2, f3, f4, f5]
  simp only [List.append_assoc] at hrecon ⊢
  exact hrecon

theorem uuidRender_injective {r1 r2 : Nat} (h1 : r1 < 2 ^ 128) (h2 : r2 < 2 ^ 128)
    (heq : uuidRender r1 = uuidRender r2) : r1 = r2 := by
  have hfilter : toHexW 32 r1 = toHexW 32 r2 := by
    rw [← uuidRender_filter r1, ← uuidRender_filter r2, heq]
  have hof := congrArg ofHex hfilter
  rw [ofHex_toHexW, ofHex_toHexW] at hof
  have hpow : (16 : Nat) ^ 32 = 2 ^ 128 := by norm_num
  rw [hpow, Nat.mod_eq_of_lt h1, Nat.mod_eq_of_lt h2] at hof
  exact hof

theorem uuidRender_ne_nil (r : Nat) : uuidRender r ≠ [] := by
  intro hcon
  have hlen := congrArg List.length hcon
  rw [uuidRender] at hlen
  simp [length_toHexW] at hlen

theorem extract_notes_origin {text v : List Char} (h : extract_notes text = some v) :
    ∃ kw ∈ notesKeywords, ∃ e, searchNotesEnd kw text = some e ∧
      v = notesClean (text.drop e) ∧ v ≠ [] ∧
      ∀ kw2 ∈ notesKeywords, ∀ e2, searchNotesEnd kw2 text = some e2 → e2 ≤ e := by
  rw [extract_notes] at h
  cases hres : notesLoop text notesKeywords none with
  | none => rw [hres] at h; simp at h
  | some p =>
    obtain ⟨e, g⟩ := p
    rw [hres] at h
    simp only at h
    by_cases hg : g = []
    · rw [if_pos hg] at h; simp at h
    · rw [if_neg hg] at h
      simp only [Option.some.injEq] at h
      subst h
      have hclean : g = notesClean (text.drop e) :=
        notesLoop_clean text notesKeywords none (by intro p hp; simp at hp) (e, g) hres
      rcases notesLoop_origin text notesKeywords none e g hres with habs | ⟨kw, hmem, hse⟩
      · simp at habs
      · refine ⟨kw, hmem, e, hse, hclean, hg, ?_⟩
        intro kw2 hmem2 e2 hse2
        obtain ⟨e3, g3, hres3, hle3⟩ := notesLoop_le text notesKeywords none kw2 hmem2 e2 hse2
        rw [hres] at hres3
        simp only [Option.some.injEq, Prod.mk.injEq] at hres3
        omega

/- ## Claim theorems -/

/-- C1 (counterexample): the claim asserts that for every supported date shape
and format template, `extract_date` on a text containing exactly one instance
of the shape returns the correct calendar date. The comma form of the third
shape, `month-name day, year`, is matched by the shape pattern but no format
template contains a comma, so `extract_date` returns absent instead of
2020-01-05. -/
theorem extract_date_comma_shape_absent :
    extract_date "Date: Jan 5, 2020".data = none := by decide

/-- C1 (amended): for the numeric shape (all four separator/year-width
variants, day-first priority, month-first fallback), the `day month-name year`
shape with four-digit years, and the comma-free `month-name day year` shape
with four-digit years, `extract_date` returns the correct calendar date —
exercising each of the twelve format templates in the ordered list; the
comma variant of shape 3 matches but fails every template and yields absent.
In particular `extract_date "Date: 01/04/2025"` is 2025-04-01. -/
theorem extract_date_shapes_correct :
    extract_date "Date: 01/04/2025".data = some ⟨2025, 4, 1⟩ ∧
    extract_date "Date: 01-04-2025".data = some ⟨2025, 4, 1⟩ ∧
    extract_date "Date: 01/04/25".data = some ⟨2025, 4, 1⟩ ∧
    extract_date "Date: 01-04-25".data = some ⟨2025, 4, 1⟩ ∧
    extract_date "Visited 5 Jan 2020".data = some ⟨2020, 1, 5⟩ ∧
    extract_date "Visited 5 January 2020".data = some ⟨2020, 1, 5⟩ ∧
    extract_date "Jan 5 2020".data = some ⟨2020, 1, 5⟩ ∧
    extract_date "January 5 2020".data = some ⟨2020, 1, 5⟩ ∧
    extract_date "04/13/2025".data = some ⟨2025, 4, 13⟩ ∧
    extract_date "04-13-2025".data = some ⟨2025, 4, 13⟩ ∧
    extract_date "04/13/25".data = some ⟨2025, 4, 13⟩ ∧
    extract_date "04-13-25".data = some ⟨2025, 4, 13⟩ ∧
    extract_date "Date: Jan 5, 2020".data = none := by decide

/-- C2 (counterexample): the claim selects among all keyword occurrences in the
text, but the code only searches for the leftmost occurrence of each keyword.
On a text where `Rx` occurs twice, once after `Notes`, the claim's reading
(modelled by `specNotesLastOcc`) yields "ibuprofen" while `extract_notes`
returns "rest\nRx: ibuprofen". -/
theorem extract_notes_first_occurrence_only :
    extract_notes "Rx: aspirin\nNotes: rest\nRx: ibuprofen".data =
      some "rest\nRx: ibuprofen".data ∧
    specNotesLastOcc "Rx: aspirin\nNotes: rest\nRx: ibuprofen".data =
      some "ibuprofen".data ∧
    ("rest\nRx: ibuprofen".data == "ibuprofen".data) = false := by decide

/-- C2 (amended): among the leftmost occurrence of each of the six keywords,
`extract_notes` selects the one whose match ends at the highest offset, takes
everything after it, and truncates at the first blank line or literal
`Signature:` / `Doctor:` marker; on the spec's example it returns
"Paracetamol 500mg". -/
theorem extract_notes_last_keyword_wins :
    extract_notes "Diagnosis: Flu\nRx: Paracetamol 500mg\n\nSignature: Dr. Smith".data =
      some "Paracetamol 500mg".data ∧
    ∀ (text v : List Char), extract_notes text = some v →
      ∃ kw ∈ notesKeywords, ∃ e, searchNotesEnd kw text = some e ∧
        v = notesClean (text.drop e) ∧
        ∀ kw2 ∈ notesKeywords, ∀ e2, searchNotesEnd kw2 text = some e2 → e2 ≤ e := by
  constructor
  · decide
  · intro text v h
    obtain ⟨kw, hmem, e, hse, hv, _, hmax⟩ := extract_notes_origin h
    exact ⟨kw, hmem, e, hse, hv, hmax⟩

/-- C2 (witness): the amended theorem applied to the spec's example text. -/
theorem extract_notes_last_keyword_wins_witness :
    ∃ kw ∈ notesKeywords, ∃ e,
      searchNotesEnd kw
        "Diagnosis: Flu\nRx: Paracetamol 500mg\n\nSignature: Dr. Smith".data = some e ∧
      "Paracetamol 500mg".data =
        notesClean (("Diagnosis: Flu\nRx: Paracetamol 500mg\n\nSignature: Dr. Smith".data).drop e) ∧
      ∀ kw2 ∈ notesKeywords, ∀ e2,
        searchNotesEnd kw2
          "Diagnosis: Flu\nRx: Paracetamol 500mg\n\nSignature: Dr. Smith".data = some e2 →
        e2 ≤ e :=
  extract_notes_last_keyword_wins.2 _ _ (by decide)

/-- C3 (counterexample): the claim says a throwing extractor leaves every other
extractor still attempted. The source wraps all five extraction statements in
one `try` block, so an exception at the name statement jumps straight to the
handler: the age field stays absent even though the age extractor succeeds on
the same text. A record is still returned with the raw text preserved. -/
theorem extraction_fault_skips_rest :
    extract_field "Age: 35".data ageKeywords = some "35".data ∧
    process_prescription_image "u".data (.text "Age: 35".data) (some .nameS) =
      .ok { patient_id := "u".data, raw_ocr_text := some "Age: 35".data } := by
  constructor
  · decide
  · rfl

/-- C3 (amended): when no extraction statement raises, the five extractions are
independent — each field of the returned record is exactly its extractor
applied to the OCR text, so an empty result in one field cannot affect the
others; and when an extraction statement does raise, the remaining extractors
are skipped but a record is still returned. -/
theorem extraction_independent_fields : ∀ (uuid t : List Char),
    process_prescription_image uuid (.text t) none =
      .ok { patient_id := uuid,
            name := extract_field t nameKeywords,
            age := extract_field t ageKeywords,
            gender := extract_field t genderKeywords,
            visit_date := extract_date t,
            doctor_notes := extract_notes t,
            raw_ocr_text := some t } ∧
    ∀ f, ∃ rec, process_prescription_image uuid (.text t) (some f) = .ok rec := by
  intro uuid t
  refine ⟨rfl, ?_⟩
  intro f
  cases f <;> exact ⟨_, rfl⟩

/-- C4 (code_bug): when the OCR engine is missing, line 134 tries to raise a
distinct `HTTPException`, but `HTTPException` is not bound at module level in
ocr_processor.py, so a `NameError` escapes instead; the caller's generic
`except Exception` branch then surfaces it as the generic
"Error processing image:" 500 rather than the distinct
"OCR processing failed: Tesseract not found." condition. -/
theorem engine_missing_raises_nameerror :
    ocrModuleTopLevelNames.contains "HTTPException".data = false ∧
    (∀ (uuid : List Char) (f : Option ExtractStep),
      process_prescription_image uuid .engineMissing f =
        .error (.nameErr "HTTPException".data)) ∧
    uploadSurface (.nameErr "HTTPException".data) =
      (500, "Error processing image:".data) ∧
    ("Error processing image:".data ==
      "OCR processing failed: Tesseract not found.".data) = false := by
  refine ⟨by decide, ?_, rfl, by decide⟩
  intro uuid f
  rfl

/-- C5 (confirmed): whenever `extract_field` returns a value, that value is the
captured group of some searched keyword post-processed by `cleanValue` — strip,
truncate at the first run of two-or-more whitespace characters or
`Capitalized:` label, strip; and on the spec's example the Age field is "35". -/
theorem extract_field_postprocess :
    (∀ (text : List Char) (kws : List (List Char)) (v : List Char),
        extract_field text kws = some v →
        ∃ kw ∈ kws, ∃ raw, searchKW kw text = some raw ∧ v = cleanValue raw) ∧
    extract_field "Name: John Doe   Age: 35   Sex: M".data ["Age".data] =
      some "35".data := by
  constructor
  · intro text kws v h
    obtain ⟨kw, hmem, raw, hs, hv, _⟩ := extract_field_origin h
    exact ⟨kw, hmem, raw, hs, hv⟩
  · decide

/-- C5 (witness): the post-processing theorem applied to the spec's example. -/
theorem extract_field_postprocess_witness :
    ∃ kw ∈ ["Age".data], ∃ raw,
      searchKW kw "Name: John Doe   Age: 35   Sex: M".data = some raw ∧
      "35".data = cleanValue raw :=
  extract_field_postprocess.1 _ _ _ (by decide)

/-- C6 (counterexample): the claim says that once the first shape matches, an
unparseable match makes `extract_date` return absent. On this text shape 1
matches "99/99/99", which no template parses, yet the function falls through
to shape 2 and returns 2020-01-05 instead of absent. -/
theorem extract_date_falls_through :
    searchMatch matchP1At "99/99/99 seen 5 Jan 2020".data = some "99/99/99".data ∧
    tryFormats "99/99/99".data = none ∧
    extract_date "99/99/99 seen 5 Jan 2020".data = some ⟨2020, 1, 5⟩ := by decide

/-- C6 (amended): `extract_date` tries the three shapes in priority order and,
for each matching shape, the format templates; if a shape's match parses with
no template the function falls through to the next shape, so the result is the
orElse-chain of the three shape-search-then-parse attempts, and it is absent
exactly when every shape either fails to match or fails to parse (never an
error). -/
theorem extract_date_orelse_chain : ∀ text : List Char,
    extract_date text =
      (((searchMatch matchP1At text).bind tryFormats).orElse
        (fun _ => ((searchMatch matchP2At text).bind tryFormats).orElse
          (fun _ => (searchMatch matchP3At text).bind tryFormats))) := by
  intro text
  simp only [extract_date, extractDateLoop]
  cases h1 : searchMatch matchP1At text with
  | some g1 =>
    cases t1 : tryFormats g1 with
    | some d => simp_all [Option.orElse, Option.bind]
    | none =>
      cases h2 : searchMatch matchP2At text with
      | some g2 =>
        cases t2 : tryFormats g2 with
        | some d => simp_all [Option.orElse, Option.bind]
        | none =>
          cases h3 : searchMatch matchP3At text with
          | some g3 => cases t3 : tryFormats g3 <;> simp_all [Option.orElse, Option.bind]
          | none => simp_all [Option.orElse, Option.bind]
      | none =>
        cases h3 : searchMatch matchP3At text with
        | some g3 => cases t3 : tryFormats g3 <;> simp_all [Option.orElse, Option.bind]
        | none => simp_all [Option.orElse, Option.bind]
  | none =>
    cases h2 : searchMatch matchP2At text with
    | some g2 =>
      cases t2 : tryFormats g2 with
      | some d => simp_all [Option.orElse, Option.bind]
      | none =>
        cases h3 : searchMatch matchP3At text with
        | some g3 => cases t3 : tryFormats g3 <;> simp_all [Option.orElse, Option.bind]
        | none => simp_all [Option.orElse, Option.bind]
    | none =>
      cases h3 : searchMatch matchP3At text with
      | some g3 => cases t3 : tryFormats g3 <;> simp_all [Option.orElse, Option.bind]
      | none => simp_all [Option.orElse, Option.bind]

/-- C7 (confirmed): when OCR produced (non-empty) text, the returned record's
`raw_ocr_text` holds that text even if any extraction statement raises; when a
generic error occurs before any text was captured, the record is still
returned and `raw_ocr_text` holds the placeholder string — in neither case
does the extraction error propagate to the caller. -/
theorem raw_text_always_preserved : ∀ (uuid t : List Char) (fault : Option ExtractStep),
    t ≠ [] →
    (∃ rec, process_prescription_image uuid (.text t) fault = .ok rec ∧
      rec.raw_ocr_text = some t) ∧
    (∃ rec, process_prescription_image uuid .genericFailure fault = .ok rec ∧
      rec.raw_ocr_text = some placeholderText) := by
  intro uuid t fault ht
  have hor : pyOr (some t) placeholderText = some t := by
    simp [pyOr, ht]
  constructor
  · cases fault with
    | none => exact ⟨_, rfl, rfl⟩
    | some f => cases f <;> exact ⟨_, rfl, hor⟩
  · exact ⟨_, rfl, rfl⟩

/-- C7 (witness): the preservation theorem at a concrete text and fault. -/
theorem raw_text_always_preserved_witness :
    (∃ rec, process_prescription_image "u".data (.text "Age: 35".data) (some .dateS) =
        .ok rec ∧ rec.raw_ocr_text = some "Age: 35".data) ∧
    (∃ rec, process_prescription_image "u".data .genericFailure (some .dateS) =
        .ok rec ∧ rec.raw_ocr_text = some placeholderText) :=
  raw_text_always_preserved "u".data "Age: 35".data (some .dateS) (by decide)

/-- C8 (confirmed): if no keyword of the list occurs in the text under
case-insensitive matching, or every keyword's captured value is empty after
trimming, `extract_field` returns absent; and it never returns the empty
string. -/
theorem extract_field_absent :
    (∀ (text : List Char) (kws : List (List Char)),
        ((∀ kw ∈ kws, occursCI kw text = false) ∨
         (∀ kw ∈ kws, ∀ raw, searchKW kw text = some raw → pystrip raw = [])) →
        extract_field text kws = none) ∧
    (∀ (text : List Char) (kws : List (List Char)) (v : List Char),
        extract_field text kws = some v → v ≠ []) := by
  constructor
  · intro text kws h
    rcases h with h | h
    · apply extract_field_none
      intro kw hmem raw hs
      rw [occursCI_false_searchKW (h kw hmem)] at hs
      exact absurd hs (by simp)
    · exact extract_field_none h
  · intro text kws v h
    obtain ⟨_, _, _, _, _, hne⟩ := extract_field_origin h
    exact hne

/-- C8 (witness): the absence theorem on a text containing no keyword. -/
theorem extract_field_absent_witness :
    extract_field "the quick brown fox".data ["Age".data, "Gender".data] = none :=
  extract_field_absent.1 _ _ (Or.inl (by decide))

/-- C9 (confirmed): with the OCR collaborator a deterministic function of the
image bytes and the uuid drawn fresh per call, two runs on identical bytes
yield records with identical extracted fields (including raw text) but
distinct, non-empty `patient_id` values. -/
theorem process_idempotent_fresh_ids :
    ∀ (ocrFun : List Nat → List Char) (img : List Nat) (r1 r2 : Nat),
      r1 < 2 ^ 128 → r2 < 2 ^ 128 → r1 ≠ r2 →
      ∀ rec1 rec2,
        processDeterministic ocrFun r1 img = .ok rec1 →
        processDeterministic ocrFun r2 img = .ok rec2 →
        (rec1.name = rec2.name ∧ rec1.age = rec2.age ∧ rec1.gender = rec2.gender ∧
         rec1.visit_date = rec2.visit_date ∧ rec1.doctor_notes = rec2.doctor_notes ∧
         rec1.raw_ocr_text = rec2.raw_ocr_text) ∧
        rec1.patient_id ≠ rec2.patient_id ∧
        rec1.patient_id ≠ [] ∧ rec2.patient_id ≠ [] := by
  intro ocrFun img r1 r2 h1 h2 hne rec1 rec2 hp1 hp2
  simp only [processDeterministic, process_prescription_image] at hp1 hp2
  rw [Except.ok.injEq] at hp1 hp2
  subst hp1
  subst hp2
  refine ⟨⟨rfl, rfl, rfl, rfl, rfl, rfl⟩, ?_, ?_, ?_⟩
  · intro hcon
    exact hne (uuidRender_injective h1 h2 hcon)
  · exact uuidRender_ne_nil r1
  · exact uuidRender_ne_nil r2

/-- C9 (witness): the idempotence theorem at concrete bytes and two concrete
fresh draws. -/
theorem process_idempotent_fresh_ids_witness :
    ∃ rec1 rec2,
      processDeterministic (fun _ => "Age: 35".data) 0 [7] = .ok rec1 ∧
      processDeterministic (fun _ => "Age: 35".data) 1 [7] = .ok rec2 ∧
      rec1.patient_id ≠ rec2.patient_id ∧ rec1.patient_id ≠ [] := by
  refine ⟨_, _, rfl, rfl, ?_, ?_⟩
  · exact (process_idempotent_fresh_ids (fun _ => "Age: 35".data) [7] 0 1
      (by norm_num) (by norm_num) (by decide) _ _ rfl rfl).2.1
  · exact (process_idempotent_fresh_ids (fun _ => "Age: 35".data) [7] 0 1
      (by norm_num) (by norm_num) (by decide) _ _ rfl rfl).2.2.1

/-- C10 (confirmed): every value returned by `extract_field` (with the default
value pattern, the only one the repository uses) or `extract_notes` is a
non-empty contiguous substring of the input text that is fixed by stripping
(no leading or trailing whitespace); neither function ever returns the empty
string. -/
theorem extracted_values_are_trimmed_substrings : ∀ text : List Char,
    (∀ (kws : List (List Char)) (v : List Char), extract_field text kws = some v →
      v ≠ [] ∧ SubstringOf v text ∧ pystrip v = v) ∧
    (∀ v : List Char, extract_notes text = some v →
      v ≠ [] ∧ SubstringOf v text ∧ pystrip v = v) := by
  intro text
  constructor
  · intro kws v h
    obtain ⟨kw, hmem, raw, hs, hv, hne⟩ := extract_field_origin h
    refine ⟨hne, ?_, by rw [hv]; exact cleanValue_stripped raw⟩
    have h1 : SubstringOf v raw := hv ▸ cleanValue_substring raw
    exact substringOf_trans h1 (searchKW_substring hs)
  · intro v h
    obtain ⟨kw, hmem, e, hse, hv, hne, _⟩ := extract_notes_origin h
    refine ⟨hne, ?_, by rw [hv]; exact notesClean_stripped _⟩
    have h1 : SubstringOf v (text.drop e) := hv ▸ notesClean_substring _
    have h2 : SubstringOf (text.drop e) text := ⟨text.take e, [], by simp⟩
    exact substringOf_trans h1 h2

/-- C10 (witness): the invariant theorem at a concrete text on which both
extractors return values. -/
theorem extracted_values_are_trimmed_substrings_witness :
    ("Bob".data ≠ [] ∧ SubstringOf "Bob".data "Name: Bob\nNotes: rest here".data ∧
      pystrip "Bob".data = "Bob".data) ∧
    ("rest here".data ≠ [] ∧
      SubstringOf "rest here".data "Name: Bob\nNotes: rest here".data ∧
      pystrip "rest here".data = "rest here".data) :=
  ⟨(extracted_values_are_trimmed_substrings "Name: Bob\nNotes: rest here".data).1
      ["Name".data] _ (by decide),
   (extracted_values_are_trimmed_substrings "Name: Bob\nNotes: rest here".data).2
      _ (by decide)⟩
